import Mathlib

/-!
Verification of the `kmsg.last` ring-buffer module (`src/kmsg_last.c`).

The C module keeps a circular byte buffer (`rbuf`) of capacity
`BUF_SIZE = 8192` that captures kernel console output, and a linear
buffer (`lbuf`) holding a sanitized snapshot of the previous boot's
ring content.  We model bytes as `Nat` (values `< 256` where it
matters), the ring storage as a function `Nat → Nat` indexed by
offsets `< BUF_SIZE`, and the cursors `head`/`tail` as offsets from
`storage_start` (`rbuf->data`).  The prior-boot state read by
`ring_buffer_copy` may hold garbage pointers, so there the offsets
are integers (`head - data` as a pointer difference) which the code
casts to an unsigned machine word before the bounds test.
-/

set_option maxRecDepth 100000

namespace KmsgLast

/-- `#define BUF_SIZE 8192` -/
def BUF_SIZE : Nat := 8192

/-- `#define BUF_MAGIC 0x4B4D5347` (stored in the `int` field `magic`). -/
def BUF_MAGIC : Int := 0x4B4D5347

/-- Live ring-buffer state (`rbuf` after `ring_buffer_init` has run):
`head` and `tail` are offsets from `rbuf->data`. -/
structure RingBuffer where
  data : Nat → Nat
  head : Nat
  tail : Nat
  magic : Int

/-- Prior-boot ring-buffer state as seen by `ring_buffer_copy` before any
validation: the cursor fields are raw pointer differences
`rbuf->head - rbuf->data` and `rbuf->tail - rbuf->data`, possibly garbage. -/
structure RawRing where
  data : Nat → Nat
  hoff : Int
  toff : Int
  magic : Int

/-- Linear buffer state (`lbuf`): `data` array plus the byte count. -/
structure LinearBuffer where
  data : Nat → Nat
  count : Nat

/-- Pointer wrap-around: `if (p == stop) p = start;` expressed on offsets. -/
def wrap (p : Nat) : Nat :=
  if p = BUF_SIZE then 0 else p

/-- The cast `(uintptr_t)(ptr - base)`: a pointer difference reduced to an
unsigned 64-bit machine word. -/
def toUIntPtr (i : Int) : Nat :=
  (i % (2 : Int) ^ 64).toNat

/-- The eviction scan inside `ring_buffer_write` (lines 70-79): starting at
`tail`, consume bytes until a newline has been consumed or the scan reaches
`head`.  `fuel` bounds the loop; callers pass `BUF_SIZE`, which is enough
because the scan stops at `head` after at most `BUF_SIZE` steps. -/
def evictLoop (data : Nat → Nat) (head : Nat) : Nat → Nat → Nat
  | tail, 0 => tail
  | tail, fuel + 1 =>
    let found := data tail = 10
    let tail1 := wrap (tail + 1)
    if tail1 = head then tail1
    else if found then tail1
    else evictLoop data head tail1 fuel

/-- One iteration of the `while (len--)` body of `ring_buffer_write`
(lines 66-80): store the byte at `head`, advance `head` circularly, and if
`head` caught up with `tail`, run the eviction scan. -/
def ring_buffer_write1 (s : RingBuffer) (b : Nat) : RingBuffer :=
  let data1 : Nat → Nat := fun i => if i = s.head then b else s.data i
  let head1 := wrap (s.head + 1)
  if head1 = s.tail then
    { s with data := data1, head := head1,
             tail := evictLoop data1 head1 s.tail BUF_SIZE }
  else
    { s with data := data1, head := head1 }

/-- `ring_buffer_write(console, str, len)`: the message is the byte list. -/
def ring_buffer_write (s : RingBuffer) (msg : List Nat) : RingBuffer :=
  msg.foldl ring_buffer_write1 s

/-- `ring_buffer_init` (lines 134-142): reset both cursors to
`storage_start` and stamp the magic value.  The data cells are untouched. -/
def ring_buffer_init (s : RingBuffer) : RingBuffer :=
  { s with head := 0, tail := 0, magic := BUF_MAGIC }

/-- The sanitizing transform applied per byte inside the copy loop of
`ring_buffer_copy` (lines 124-127):
`if (data & 0x80) data &= 0x7F; if (data < 0x20 && data != '\n') data |= 0x20;` -/
def sanitize (b : Nat) : Nat :=
  let b1 := if b &&& 0x80 ≠ 0 then b &&& 0x7F else b
  if b1 < 0x20 ∧ b1 ≠ 10 then b1 ||| 0x20 else b1

/-- The validity guard of `ring_buffer_copy` (lines 102-104), as the
condition under which the copy proceeds (the C code early-returns on its
negation). -/
def rb_valid (raw : RawRing) : Bool :=
  (raw.magic == BUF_MAGIC)
    && decide (toUIntPtr raw.hoff < BUF_SIZE)
    && decide (toUIntPtr raw.toff < BUF_SIZE)

/-- `lbuf->count = (tail > head ? BUF_SIZE : 0) + head - tail;` (line 117). -/
def ringLen (head tail : Nat) : Nat :=
  (if head < tail then BUF_SIZE else 0) + head - tail

/-- The copy loop of `ring_buffer_copy` (lines 120-129): walk from `tail`
to `head` circularly, sanitizing each byte.  `fuel = BUF_SIZE` suffices
since the walk is at most `BUF_SIZE - 1` steps for in-range cursors. -/
def copyLoop (data : Nat → Nat) (head : Nat) : Nat → Nat → List Nat
  | _, 0 => []
  | tail, fuel + 1 =>
    if head = tail then []
    else sanitize (data tail) :: copyLoop data head (wrap (tail + 1)) fuel

/-- `ring_buffer_copy` (lines 92-130): validate the prior ring state; on
failure set `lbuf->count = 0` and copy nothing; on success set the count
from the cursor span and copy the sanitized bytes into `lbuf->data`. -/
def ring_buffer_copy (raw : RawRing) (lb : LinearBuffer) : LinearBuffer :=
  if rb_valid raw then
    let hN := toUIntPtr raw.hoff
    let tN := toUIntPtr raw.toff
    let out := copyLoop raw.data hN tN BUF_SIZE
    { data := fun i => if i < out.length then out.getD i 0 else lb.data i,
      count := ringLen hN tN }
  else
    { lb with count := 0 }

/-- `linear_buffer_read(file, buf, count, ppos)` (lines 146-166) on the
success path of `copy_to_user`: clamp the position, clamp the count,
return the copied bytes together with the updated position. -/
def linear_buffer_read (lb : LinearBuffer) (count ppos : Nat) :
    List Nat × Nat :=
  let pos1 := if ppos ≥ lb.count then lb.count else ppos
  let count1 := if pos1 + count ≥ lb.count then lb.count - pos1 else count
  ((List.range count1).map (fun i => lb.data (pos1 + i)), pos1 + count1)

/-- `linear_buffer_write(file, buf, count, ppos)` (lines 170-178): erase
the linear buffer and report the whole input size as consumed.  The user
data and the position are ignored by the C code but kept as arguments. -/
def linear_buffer_write (lb : LinearBuffer) (buf : List Nat)
    (count ppos : Nat) : LinearBuffer × Nat :=
  ({ lb with count := 0 }, count)

/-- The retained window of the ring buffer: the bytes from `tail` to
`head`, read circularly; its length is the span the copy path would
compute for these cursors. -/
def window (s : RingBuffer) : List Nat :=
  (List.range (ringLen s.head s.tail)).map
    (fun i => s.data ((s.tail + i) % BUF_SIZE))

/-- A byte that is safe to render: a newline or a printable character. -/
def displayable (b : Nat) : Prop :=
  b = 10 ∨ (0x20 ≤ b ∧ b ≤ 0x7F)

instance (b : Nat) : Decidable (displayable b) := by
  unfold displayable; infer_instance

/-- The sanitizer as the specification words it: values `≥ 0x80` lose
`0x80`; then a control value other than newline gets bit `0x20` set. -/
def sanitizeSpec (b : Nat) : Nat :=
  let b1 := if 0x80 ≤ b then b - 0x80 else b
  if b1 < 0x20 ∧ b1 ≠ 10 then b1 ||| 0x20 else b1

-- ************************************************************************
-- Helper lemmas
-- ************************************************************************

lemma wrap_eq_mod {p : Nat} (h : p ≤ BUF_SIZE) : wrap p = p % BUF_SIZE := by
  unfold wrap
  rcases Nat.lt_or_ge p BUF_SIZE with h1 | h1
  · rw [if_neg (Nat.ne_of_lt h1), Nat.mod_eq_of_lt h1]
  · have : p = BUF_SIZE := Nat.le_antisymm h h1
    simp [this]

lemma wrap_lt {p : Nat} (h : p ≤ BUF_SIZE) : wrap p < BUF_SIZE := by
  rw [wrap_eq_mod h]
  exact Nat.mod_lt _ (by simp [BUF_SIZE])

lemma ringLen_lt {head tail : Nat} (hh : head < BUF_SIZE) (ht : tail < BUF_SIZE) :
    ringLen head tail < BUF_SIZE := by
  unfold ringLen at *
  simp only [BUF_SIZE] at *
  split_ifs <;> omega

lemma ringLen_self (p : Nat) : ringLen p p = 0 := by
  unfold ringLen
  simp

lemma ringLen_eq_zero {head tail : Nat} (hh : head < BUF_SIZE)
    (ht : tail < BUF_SIZE) (h : ringLen head tail = 0) : head = tail := by
  unfold ringLen at h
  simp only [BUF_SIZE] at *
  split_ifs at h <;> omega

lemma ringLen_step {head tail : Nat} (hh : head < BUF_SIZE)
    (ht : tail < BUF_SIZE) (hne : head ≠ tail) :
    ringLen head (wrap (tail + 1)) = ringLen head tail - 1 := by
  unfold ringLen wrap
  simp only [BUF_SIZE] at *
  split_ifs <;> omega

lemma ringLen_pos {head tail : Nat} (hh : head < BUF_SIZE)
    (ht : tail < BUF_SIZE) (hne : head ≠ tail) : 0 < ringLen head tail := by
  unfold ringLen
  simp only [BUF_SIZE] at *
  split_ifs <;> omega

/-- The copy loop produces exactly the sanitized circular window from
`tail` to `head`. -/
lemma copyLoop_eq : ∀ (n : Nat) (data : Nat → Nat) (head tail fuel : Nat),
    head < BUF_SIZE → tail < BUF_SIZE → ringLen head tail = n → n ≤ fuel →
    copyLoop data head tail fuel
      = (List.range n).map (fun i => sanitize (data ((tail + i) % BUF_SIZE))) := by
  intro n
  induction n with
  | zero =>
    intro data head tail fuel hh ht hlen _
    have : head = tail := ringLen_eq_zero hh ht hlen
    subst this
    cases fuel with
    | zero => rfl
    | succ fuel => simp [copyLoop]
  | succ n ih =>
    intro data head tail fuel hh ht hlen hfuel
    cases fuel with
    | zero => omega
    | succ fuel =>
      have hne : head ≠ tail := by
        intro h
        subst h
        rw [ringLen_self] at hlen
        omega
      have hstep : ringLen head (wrap (tail + 1)) = n := by
        rw [ringLen_step hh ht hne, hlen]
        omega
      have hrec := ih data head (wrap (tail + 1)) fuel hh
        (wrap_lt (by omega)) hstep (by omega)
      rw [List.range_succ_eq_map, List.map_cons, List.map_map]
      show copyLoop data head tail (fuel + 1) = _
      rw [copyLoop, if_neg hne, hrec]
      congr 1
      · rw [Nat.add_zero, Nat.mod_eq_of_lt ht]
      · apply List.map_congr_left
        intro a _
        simp only [Function.comp_apply]
        rw [wrap_eq_mod (by omega), Nat.mod_add_mod]
        have h3 : tail + 1 + a = tail + (a + 1) := by omega
        rw [h3]

lemma getD_range_map (f : Nat → Nat) {n j : Nat} (hj : j < n) :
    ((List.range n).map f).getD j 0 = f j := by
  rw [List.getD_eq_getElem _ _ (by simpa using hj)]
  simp

lemma rb_valid_bounds {raw : RawRing} (hv : rb_valid raw = true) :
    raw.magic = BUF_MAGIC ∧ toUIntPtr raw.hoff < BUF_SIZE
      ∧ toUIntPtr raw.toff < BUF_SIZE := by
  unfold rb_valid at hv
  simp only [Bool.and_eq_true, decide_eq_true_eq, beq_iff_eq] at hv
  tauto

lemma copy_valid_count {raw : RawRing} (lb : LinearBuffer)
    (hv : rb_valid raw = true) :
    (ring_buffer_copy raw lb).count
      = ringLen (toUIntPtr raw.hoff) (toUIntPtr raw.toff) := by
  unfold ring_buffer_copy
  simp [hv]

lemma copy_valid_data {raw : RawRing} (lb : LinearBuffer)
    (hv : rb_valid raw = true) :
    ∀ j, j < (ring_buffer_copy raw lb).count →
      (ring_buffer_copy raw lb).data j
        = sanitize (raw.data ((toUIntPtr raw.toff + j) % BUF_SIZE)) := by
  intro j hj
  obtain ⟨-, hh, ht⟩ := rb_valid_bounds hv
  rw [copy_valid_count lb hv] at hj
  have hloop := copyLoop_eq (ringLen (toUIntPtr raw.hoff) (toUIntPtr raw.toff))
    raw.data (toUIntPtr raw.hoff) (toUIntPtr raw.toff) BUF_SIZE hh ht rfl
    (Nat.le_of_lt (ringLen_lt hh ht))
  unfold ring_buffer_copy
  simp only [hv, if_true]
  rw [hloop]
  simp only [List.length_map, List.length_range]
  rw [if_pos hj, getD_range_map _ hj]

/-- The number of bytes the copy loop produces equals the computed count. -/
lemma copy_loop_length {raw : RawRing} (hv : rb_valid raw = true) :
    (copyLoop raw.data (toUIntPtr raw.hoff) (toUIntPtr raw.toff) BUF_SIZE).length
      = ringLen (toUIntPtr raw.hoff) (toUIntPtr raw.toff) := by
  obtain ⟨-, hh, ht⟩ := rb_valid_bounds hv
  rw [copyLoop_eq (ringLen (toUIntPtr raw.hoff) (toUIntPtr raw.toff))
    raw.data (toUIntPtr raw.hoff) (toUIntPtr raw.toff) BUF_SIZE hh ht rfl
    (Nat.le_of_lt (ringLen_lt hh ht))]
  simp

-- ************************************************************************
-- Claim theorems
-- ************************************************************************

/-- C5: for every byte, the sanitizer first clears the high bit
(`b ≥ 0x80` becomes `b - 0x80`), then maps a non-newline control value
below `0x20` up by setting bit `0x20`, passing newline through unchanged;
in particular `0x01 ↦ 0x21`, `0x0A ↦ 0x0A` and `0xFF ↦ 0x7F`. -/
theorem C5_sanitizer :
    (∀ b, b < 256 → sanitize b = sanitizeSpec b)
    ∧ sanitize 0x01 = 0x21 ∧ sanitize 0x0A = 0x0A ∧ sanitize 0xFF = 0x7F := by
  refine ⟨by decide, by decide, by decide, by decide⟩

/-- C5 witness: the general part of `C5_sanitizer` applied at `0x9B`. -/
theorem C5_witness : sanitize 0x9B = sanitizeSpec 0x9B :=
  C5_sanitizer.1 0x9B (by decide)

/-- C7: a write of any size and content to the snapshot endpoint sets the
snapshot length to 0, reports the full input size as consumed, and every
subsequent read returns zero bytes. -/
theorem C7_erase_on_write :
    ∀ (lb : LinearBuffer) (buf : List Nat) (count ppos : Nat),
      ((linear_buffer_write lb buf count ppos).1.count = 0)
      ∧ ((linear_buffer_write lb buf count ppos).2 = count)
      ∧ (∀ c p,
          (linear_buffer_read (linear_buffer_write lb buf count ppos).1 c p).1
            = []) := by
  intro lb buf count ppos
  refine ⟨rfl, rfl, ?_⟩
  intro c p
  simp [linear_buffer_write, linear_buffer_read]

/-- C6: `linear_buffer_read` clamps the position to `[0, count]` and the
byte count so that their sum stays within the snapshot, returns exactly the
clamped slice, advances the position by exactly the bytes returned, never
touches an index outside the snapshot (hence stays inside the `BUF_SIZE`
array), and a position at or beyond the snapshot length yields no bytes. -/
theorem C6_read_clamp :
    ∀ (lb : LinearBuffer) (count ppos : Nat), lb.count ≤ BUF_SIZE →
      (linear_buffer_read lb count ppos).1.length
          = min count (lb.count - min ppos lb.count)
      ∧ (linear_buffer_read lb count ppos).1
          = (List.range (linear_buffer_read lb count ppos).1.length).map
              (fun i => lb.data (min ppos lb.count + i))
      ∧ (linear_buffer_read lb count ppos).2
          = min ppos lb.count + (linear_buffer_read lb count ppos).1.length
      ∧ min ppos lb.count + (linear_buffer_read lb count ppos).1.length
          ≤ lb.count
      ∧ (∀ j, j < (linear_buffer_read lb count ppos).1.length →
            min ppos lb.count + j < BUF_SIZE)
      ∧ (lb.count ≤ ppos → (linear_buffer_read lb count ppos).1 = []) := by
  intro lb count ppos hle
  unfold linear_buffer_read
  simp only [List.length_map, List.length_range]
  set p1 := if ppos ≥ lb.count then lb.count else ppos with hp1
  set c1 := if p1 + count ≥ lb.count then lb.count - p1 else count with hc1
  have hp : p1 = min ppos lb.count := by
    rw [hp1]; split_ifs <;> omega
  have hc : c1 = min count (lb.count - p1) := by
    rw [hc1]; split_ifs <;> omega
  refine ⟨by omega, by rw [← hp], by omega, by omega, ?_, ?_⟩
  · intro j hj; omega
  · intro h
    have hz : c1 = 0 := by omega
    rw [hz]; simp

/-- C6 witness: `C6_read_clamp` at a 5-byte snapshot, position 2,
request 10. -/
theorem C6_witness :
    (linear_buffer_read ⟨fun i => i + 100, 5⟩ 10 2).1.length
        = min 10 ((5 : Nat) - min 2 5)
    ∧ (linear_buffer_read ⟨fun i => i + 100, 5⟩ 10 2).1
        = (List.range
            (linear_buffer_read ⟨fun i => i + 100, 5⟩ 10 2).1.length).map
            (fun i => (fun i => i + 100 : Nat → Nat) (min 2 5 + i))
    ∧ (linear_buffer_read ⟨fun i => i + 100, 5⟩ 10 2).2
        = min 2 5 + (linear_buffer_read ⟨fun i => i + 100, 5⟩ 10 2).1.length
    ∧ min 2 5 + (linear_buffer_read ⟨fun i => i + 100, 5⟩ 10 2).1.length ≤ 5
    ∧ (∀ j, j < (linear_buffer_read ⟨fun i => i + 100, 5⟩ 10 2).1.length →
          min 2 5 + j < BUF_SIZE)
    ∧ ((5 : Nat) ≤ 2 → (linear_buffer_read ⟨fun i => i + 100, 5⟩ 10 2).1 = []) :=
  C6_read_clamp ⟨fun i => i + 100, 5⟩ 10 2 (by decide)

/-- C4: the copy path trusts the prior ring state exactly when the stored
magic equals the sentinel and both cursor offsets, cast to an unsigned
machine word, are strictly below `BUF_SIZE`; on any failed check the
snapshot count becomes 0 and no byte of the linear buffer is written. -/
theorem C4_validity :
    ∀ (raw : RawRing) (lb : LinearBuffer),
      (rb_valid raw = true ↔
        (raw.magic = BUF_MAGIC ∧ toUIntPtr raw.hoff < BUF_SIZE
          ∧ toUIntPtr raw.toff < BUF_SIZE))
      ∧ (rb_valid raw = false →
          (ring_buffer_copy raw lb).count = 0
          ∧ ∀ i, (ring_buffer_copy raw lb).data i = lb.data i) := by
  intro raw lb
  constructor
  · unfold rb_valid
    simp only [Bool.and_eq_true, decide_eq_true_eq, beq_iff_eq]
    tauto
  · intro h
    unfold ring_buffer_copy
    simp [h]

/-- C4 witness: `C4_validity` at a head offset equal to `BUF_SIZE`, a tail
offset equal to `BUF_SIZE + 5`, a negative head offset, and a magic
mismatch — each is rejected and leaves a zero-length snapshot. -/
theorem C4_witness :
    (ring_buffer_copy ⟨fun _ => 0, 8192, 0, BUF_MAGIC⟩ ⟨fun _ => 7, 3⟩).count = 0
    ∧ (ring_buffer_copy ⟨fun _ => 0, 0, 8197, BUF_MAGIC⟩ ⟨fun _ => 7, 3⟩).count = 0
    ∧ (ring_buffer_copy ⟨fun _ => 0, -1, 0, BUF_MAGIC⟩ ⟨fun _ => 7, 3⟩).count = 0
    ∧ (ring_buffer_copy ⟨fun _ => 0, 0, 0, 0⟩ ⟨fun _ => 7, 3⟩).count = 0 :=
  ⟨((C4_validity ⟨fun _ => 0, 8192, 0, BUF_MAGIC⟩ ⟨fun _ => 7, 3⟩).2 (by decide)).1,
   ((C4_validity ⟨fun _ => 0, 0, 8197, BUF_MAGIC⟩ ⟨fun _ => 7, 3⟩).2 (by decide)).1,
   ((C4_validity ⟨fun _ => 0, -1, 0, BUF_MAGIC⟩ ⟨fun _ => 7, 3⟩).2 (by decide)).1,
   ((C4_validity ⟨fun _ => 0, 0, 0, 0⟩ ⟨fun _ => 7, 3⟩).2 (by decide)).1⟩

/-- C10: for every prior state accepted by the validity check, the
computed snapshot count is strictly below `BUF_SIZE`, and equal cursors
always mean an empty snapshot, never a full one. -/
theorem C10_count_lt_capacity :
    ∀ (raw : RawRing) (lb : LinearBuffer), rb_valid raw = true →
      (ring_buffer_copy raw lb).count < BUF_SIZE
      ∧ (toUIntPtr raw.hoff = toUIntPtr raw.toff →
          (ring_buffer_copy raw lb).count = 0) := by
  intro raw lb hv
  have hb := hv
  unfold rb_valid at hb
  simp only [Bool.and_eq_true, decide_eq_true_eq, beq_iff_eq] at hb
  unfold ring_buffer_copy
  simp only [hv, if_true]
  unfold ringLen
  constructor
  · split_ifs <;> simp [BUF_SIZE] at hb ⊢ <;> omega
  · intro he
    rw [he]
    split_ifs <;> omega

/-- C10 witness: `C10_count_lt_capacity` at a valid state with equal
cursors at offset 3. -/
theorem C10_witness :
    (ring_buffer_copy ⟨fun _ => 0, 3, 3, BUF_MAGIC⟩ ⟨fun _ => 7, 0⟩).count < BUF_SIZE
    ∧ (ring_buffer_copy ⟨fun _ => 0, 3, 3, BUF_MAGIC⟩ ⟨fun _ => 7, 0⟩).count = 0 :=
  ⟨(C10_count_lt_capacity ⟨fun _ => 0, 3, 3, BUF_MAGIC⟩ ⟨fun _ => 7, 0⟩ (by decide)).1,
   (C10_count_lt_capacity ⟨fun _ => 0, 3, 3, BUF_MAGIC⟩ ⟨fun _ => 7, 0⟩ (by decide)).2
     (by decide)⟩

/-- C3: for a prior state that passes the validity check, the snapshot
count is `BUF_SIZE - (tail - head)` when the tail offset exceeds the head
offset and `head - tail` otherwise; the copy walk produces exactly that
many bytes, and byte `j` of the snapshot is the sanitized ring byte at
offset `(tail + j) mod BUF_SIZE` — the sanitizer is applied 1:1, inserting
and deleting nothing. -/
theorem C3_copy_length_and_content :
    ∀ (raw : RawRing) (lb : LinearBuffer), rb_valid raw = true →
      ((ring_buffer_copy raw lb).count
          = if toUIntPtr raw.hoff < toUIntPtr raw.toff
            then BUF_SIZE - (toUIntPtr raw.toff - toUIntPtr raw.hoff)
            else toUIntPtr raw.hoff - toUIntPtr raw.toff)
      ∧ (copyLoop raw.data (toUIntPtr raw.hoff) (toUIntPtr raw.toff)
            BUF_SIZE).length = (ring_buffer_copy raw lb).count
      ∧ (∀ j, j < (ring_buffer_copy raw lb).count →
          (ring_buffer_copy raw lb).data j
            = sanitize (raw.data ((toUIntPtr raw.toff + j) % BUF_SIZE))) := by
  intro raw lb hv
  obtain ⟨-, hh, ht⟩ := rb_valid_bounds hv
  refine ⟨?_, ?_, copy_valid_data lb hv⟩
  · rw [copy_valid_count lb hv]
    unfold ringLen
    simp only [BUF_SIZE] at *
    split_ifs <;> omega
  · rw [copy_loop_length hv, copy_valid_count lb hv]

/-- C3 witness: `C3_copy_length_and_content` at a valid prior state with
head offset 3, tail offset 1 and ring bytes `0xC8`. -/
theorem C3_witness :
    (copyLoop (fun _ => 200) (toUIntPtr 3) (toUIntPtr 1) BUF_SIZE).length
        = (ring_buffer_copy ⟨fun _ => 200, 3, 1, BUF_MAGIC⟩ ⟨fun _ => 0, 0⟩).count
    ∧ (ring_buffer_copy ⟨fun _ => 200, 3, 1, BUF_MAGIC⟩ ⟨fun _ => 0, 0⟩).data 0
        = sanitize ((fun _ => (200 : Nat)) ((toUIntPtr 1 + 0) % BUF_SIZE)) :=
  ⟨(C3_copy_length_and_content ⟨fun _ => 200, 3, 1, BUF_MAGIC⟩
      ⟨fun _ => 0, 0⟩ (by decide)).2.1,
   (C3_copy_length_and_content ⟨fun _ => 200, 3, 1, BUF_MAGIC⟩
      ⟨fun _ => 0, 0⟩ (by decide)).2.2 0 (by decide)⟩

lemma sanitize_displayable : ∀ b, b < 256 → displayable (sanitize b) := by
  decide

/-- C9: every byte the snapshot builder stores is a newline or printable
(no high-bit byte, no other control byte), and both the read path and the
erase path preserve that property of the snapshot content. -/
theorem C9_displayable :
    (∀ (raw : RawRing) (lb : LinearBuffer),
        (∀ i, i < BUF_SIZE → raw.data i < 256) →
        ∀ j, j < (ring_buffer_copy raw lb).count →
          displayable ((ring_buffer_copy raw lb).data j))
    ∧ (∀ (lb : LinearBuffer) (c p : Nat),
        (∀ j, j < lb.count → displayable (lb.data j)) →
        ∀ j, j < (linear_buffer_read lb c p).1.length →
          displayable ((linear_buffer_read lb c p).1.getD j 0))
    ∧ (∀ (lb : LinearBuffer) (buf : List Nat) (c p j : Nat),
        j < ((linear_buffer_write lb buf c p).1).count →
          displayable (((linear_buffer_write lb buf c p).1).data j)) := by
  refine ⟨?_, ?_, ?_⟩
  · intro raw lb hdata j hj
    by_cases hv : rb_valid raw = true
    · rw [copy_valid_data lb hv j hj]
      apply sanitize_displayable
      apply hdata
      exact Nat.mod_lt _ (by simp [BUF_SIZE])
    · have hv' : rb_valid raw = false := by
        revert hv; cases rb_valid raw <;> simp
      have hz : (ring_buffer_copy raw lb).count = 0 := by
        unfold ring_buffer_copy; simp [hv']
      omega
  · intro lb c p hdisp j hj
    unfold linear_buffer_read at *
    simp only [List.length_map, List.length_range] at hj
    set p1 := if p ≥ lb.count then lb.count else p with hp1
    set c1 := if p1 + c ≥ lb.count then lb.count - p1 else c with hc1
    rw [getD_range_map _ hj]
    apply hdisp
    have hpb : p1 ≤ lb.count := by rw [hp1]; split_ifs <;> omega
    have hcb : p1 + c1 ≤ lb.count := by rw [hc1]; split_ifs <;> omega
    omega
  · intro lb buf c p j hj
    simp only [linear_buffer_write] at hj
    omega

/-- C9 witness: part one of `C9_displayable` at a valid prior state whose
ring bytes are `0xC8` (high bit set). -/
theorem C9_witness :
    displayable ((ring_buffer_copy ⟨fun _ => 200, 2, 0, BUF_MAGIC⟩
      ⟨fun _ => 0, 0⟩).data 0) :=
  C9_displayable.1 ⟨fun _ => 200, 2, 0, BUF_MAGIC⟩ ⟨fun _ => 0, 0⟩
    (fun _ _ => (by decide : (200 : Nat) < 256)) 0 (by decide)

-- ************************************************************************
-- Write-path lemmas
-- ************************************************************************

/-- Storage whose first cells hold the bytes written so far and whose
remaining cells keep their previous content. -/
def fill (d0 : Nat → Nat) (ws : List Nat) : Nat → Nat :=
  fun i => if i < ws.length then ws.getD i 0 else d0 i

lemma fill_nil (d0 : Nat → Nat) : fill d0 [] = d0 := by
  funext i
  simp [fill]

lemma getD_snoc_len : ∀ (ws : List Nat) (b : Nat),
    (ws ++ [b]).getD ws.length 0 = b := by
  intro ws b
  induction ws with
  | nil => rfl
  | cons a ws ih => simpa using ih

lemma getD_snoc_lt : ∀ (ws : List Nat) (b : Nat) (i : Nat), i < ws.length →
    (ws ++ [b]).getD i 0 = ws.getD i 0 := by
  intro ws b
  induction ws with
  | nil => intro i hi; simp at hi
  | cons a ws ih =>
    intro i hi
    cases i with
    | zero => rfl
    | succ i =>
      simp only [List.cons_append, List.getD_cons_succ]
      exact ih i (by simpa using hi)

lemma getD_replicate_lt {a d : Nat} : ∀ {n i : Nat}, i < n →
    (List.replicate n a).getD i d = a := by
  intro n
  induction n with
  | zero => intro i hi; omega
  | succ n ih =>
    intro i hi
    rw [List.replicate_succ]
    cases i with
    | zero => rfl
    | succ i =>
      rw [List.getD_cons_succ]
      exact ih (by omega)

lemma fill_snoc (d0 : Nat → Nat) (ws : List Nat) (b : Nat) :
    (fun i => if i = ws.length then b else fill d0 ws i)
      = fill d0 (ws ++ [b]) := by
  funext i
  unfold fill
  rcases Nat.lt_trichotomy i ws.length with hi | hi | hi
  · rw [if_neg (by omega), if_pos hi, if_pos (by simp; omega),
      getD_snoc_lt ws b i hi]
  · subst hi
    simp [getD_snoc_len]
  · rw [if_neg (by omega), if_neg (by omega), if_neg (by simp; omega)]

lemma range_map_getD : ∀ (ws : List Nat),
    (List.range ws.length).map (fun i => ws.getD i 0) = ws := by
  intro ws
  induction ws with
  | nil => rfl
  | cons a ws ih =>
    rw [List.length_cons, List.range_succ_eq_map, List.map_cons, List.map_map]
    congr 1

/-- One write step below capacity: store the byte, advance the head, no
eviction. -/
lemma write1_fill (d0 : Nat → Nat) (m : Int) (ws : List Nat) (b : Nat)
    (h : ws.length + 1 < BUF_SIZE) :
    ring_buffer_write1 ⟨fill d0 ws, ws.length, 0, m⟩ b
      = ⟨fill d0 (ws ++ [b]), ws.length + 1, 0, m⟩ := by
  unfold ring_buffer_write1
  dsimp only
  have hw : wrap (ws.length + 1) = ws.length + 1 := by
    unfold wrap
    rw [if_neg (by omega)]
  rw [hw, if_neg (by omega), fill_snoc d0 ws b]

/-- Writing below capacity from an all-written prefix state appends the
bytes with no eviction. -/
lemma write_fill (d0 : Nat → Nat) (m : Int) :
    ∀ (l ws : List Nat), ws.length + l.length < BUF_SIZE →
      ring_buffer_write ⟨fill d0 ws, ws.length, 0, m⟩ l
        = ⟨fill d0 (ws ++ l), (ws ++ l).length, 0, m⟩ := by
  intro l
  induction l with
  | nil =>
    intro ws h
    simp [ring_buffer_write]
  | cons b l ih =>
    intro ws h
    unfold ring_buffer_write at *
    rw [List.foldl_cons, write1_fill d0 m ws b (by simp at h; omega)]
    have hrec := ih (ws ++ [b]) (by simp at h ⊢; omega)
    rw [show (ws ++ [b]).length = ws.length + 1 by simp] at hrec
    rw [hrec]
    simp

/-- The retained window of an all-written prefix state is that prefix. -/
lemma window_fill (d0 : Nat → Nat) (m : Int) (ws : List Nat)
    (h : ws.length < BUF_SIZE) :
    window ⟨fill d0 ws, ws.length, 0, m⟩ = ws := by
  unfold window
  dsimp only
  have hr : ringLen ws.length 0 = ws.length := by
    unfold ringLen
    simp
  rw [hr]
  conv_rhs => rw [← range_map_getD ws]
  apply List.map_congr_left
  intro i hi
  rw [List.mem_range] at hi
  unfold fill
  rw [Nat.zero_add, Nat.mod_eq_of_lt (by omega), if_pos hi]

/-- A sequence of `ring_buffer_write` calls is the single write of the
concatenated bytes. -/
lemma foldl_write_flatten : ∀ (ls : List (List Nat)) (s : RingBuffer),
    ls.foldl ring_buffer_write s = ring_buffer_write s ls.flatten := by
  intro ls
  induction ls with
  | nil => intro s; rfl
  | cons l ls ih =>
    intro s
    rw [List.foldl_cons, ih, List.flatten_cons]
    unfold ring_buffer_write
    rw [List.foldl_append]

/-- The eviction scan over a buffer with no newline anywhere runs all the
way round and stops only when it meets the head again. -/
lemma evict_no_newline (data : Nat → Nat)
    (hnn : ∀ i, i < BUF_SIZE → data i ≠ 10) :
    ∀ (k t fuel : Nat), t + k = BUF_SIZE → 1 ≤ k → k ≤ fuel →
      evictLoop data 0 t fuel = 0 := by
  intro k
  induction k with
  | zero => intro t fuel h h1 _; omega
  | succ k ih =>
    intro t fuel ht h1 hf
    cases fuel with
    | zero => omega
    | succ fuel =>
      unfold evictLoop
      dsimp only
      have hnt : ¬(data t = 10) := hnn t (by omega)
      by_cases hk : k = 0
      · have h2 : wrap (t + 1) = 0 := by
          unfold wrap
          rw [if_pos (by omega)]
        rw [h2, if_pos rfl]
      · have h2 : wrap (t + 1) = t + 1 := by
          unfold wrap
          rw [if_neg (by omega)]
        rw [h2, if_neg (by omega), if_neg hnt]
        exact ih (t + 1) fuel (by omega) (by omega) (by omega)

/-- The write step that makes the buffer full: when the byte written is
the `BUF_SIZE`-th and the whole resulting content is newline-free, the
head wraps onto the tail and the eviction scan consumes everything,
leaving both cursors at the start. -/
lemma write1_full (d0 : Nat → Nat) (m : Int) (ws : List Nat) (b : Nat)
    (hlen : ws.length + 1 = BUF_SIZE)
    (hnn : ∀ i, i < BUF_SIZE → fill d0 (ws ++ [b]) i ≠ 10) :
    ring_buffer_write1 ⟨fill d0 ws, ws.length, 0, m⟩ b
      = ⟨fill d0 (ws ++ [b]), 0, 0, m⟩ := by
  unfold ring_buffer_write1
  dsimp only
  have hw : wrap (ws.length + 1) = 0 := by
    unfold wrap
    rw [if_pos hlen]
  rw [hw, if_pos rfl, fill_snoc d0 ws b]
  simp only [RingBuffer.mk.injEq, and_true, true_and]
  exact evict_no_newline (fill d0 (ws ++ [b])) hnn BUF_SIZE 0 BUF_SIZE rfl
    (by simp [BUF_SIZE]) le_rfl

/-- Writing exactly `BUF_SIZE` newline-free bytes into a fresh buffer
triggers one eviction that consumes the whole buffer: both cursors end
back at the start. -/
lemma write_no_newline_full (d0 : Nat → Nat) (m : Int) (ws : List Nat)
    (hlen : ws.length = BUF_SIZE) (hnn : ∀ b ∈ ws, b ≠ 10) :
    ring_buffer_write ⟨d0, 0, 0, m⟩ ws = ⟨fill d0 ws, 0, 0, m⟩ := by
  rcases List.eq_nil_or_concat ws with rfl | ⟨ws1, b, rfl⟩
  · simp [BUF_SIZE] at hlen
  · rw [List.concat_eq_append] at *
    have hlen1 : ws1.length + 1 = BUF_SIZE := by simpa using hlen
    have h1 := write_fill d0 m ws1 [] (by simp; omega)
    rw [fill_nil] at h1
    simp only [List.nil_append, List.length_nil] at h1
    unfold ring_buffer_write at *
    rw [List.foldl_append, h1, List.foldl_cons, List.foldl_nil]
    apply write1_full d0 m ws1 b hlen1
    intro i hi
    unfold fill
    rw [if_pos (by simp at hlen1 ⊢; omega)]
    have hmem : (ws1 ++ [b]).getD i 0 ∈ ws1 ++ [b] := by
      rw [List.getD_eq_getElem _ _ (by simp at hlen1 ⊢; omega)]
      exact List.getElem_mem _
    exact hnn _ hmem

lemma evictLoop_lt (data : Nat → Nat) (head : Nat) :
    ∀ (fuel tail : Nat), tail < BUF_SIZE →
      evictLoop data head tail fuel < BUF_SIZE := by
  intro fuel
  induction fuel with
  | zero => intro tail ht; exact ht
  | succ fuel ih =>
    intro tail ht
    unfold evictLoop
    dsimp only
    split_ifs
    · exact wrap_lt (by omega)
    · exact wrap_lt (by omega)
    · exact ih (wrap (tail + 1)) (wrap_lt (by omega))

lemma write1_bounds (s : RingBuffer) (b : Nat) (hh : s.head < BUF_SIZE)
    (ht : s.tail < BUF_SIZE) :
    (ring_buffer_write1 s b).head < BUF_SIZE
      ∧ (ring_buffer_write1 s b).tail < BUF_SIZE := by
  unfold ring_buffer_write1
  dsimp only
  split_ifs with h
  · exact ⟨wrap_lt (by omega), evictLoop_lt _ _ _ _ ht⟩
  · exact ⟨wrap_lt (by omega), ht⟩

lemma write_bounds : ∀ (msg : List Nat) (s : RingBuffer),
    s.head < BUF_SIZE → s.tail < BUF_SIZE →
      (ring_buffer_write s msg).head < BUF_SIZE
      ∧ (ring_buffer_write s msg).tail < BUF_SIZE := by
  intro msg
  induction msg with
  | nil => intro s hh ht; exact ⟨hh, ht⟩
  | cons b msg ih =>
    intro s hh ht
    unfold ring_buffer_write at *
    rw [List.foldl_cons]
    have hb := write1_bounds s b hh ht
    exact ih (ring_buffer_write1 s b) hb.1 hb.2

/-- C1 counterexample: a single write of exactly `BUF_SIZE` newline-free
bytes has total length at most `BUF_SIZE`, yet the retained window
afterwards is empty rather than the written bytes — storing the final byte
makes the head meet the tail and the eviction scan, finding no newline,
consumes the entire buffer. -/
theorem C1_counterexample :
    (List.flatten [List.replicate BUF_SIZE 97]).length ≤ BUF_SIZE
    ∧ window (List.foldl ring_buffer_write
        (ring_buffer_init ⟨fun _ => 0, 0, 0, 0⟩)
        [List.replicate BUF_SIZE 97])
      ≠ List.flatten [List.replicate BUF_SIZE 97] := by
  have hfl : List.flatten [List.replicate BUF_SIZE 97]
      = List.replicate BUF_SIZE 97 := by simp
  constructor
  · rw [hfl]
    simp
  · rw [foldl_write_flatten, hfl]
    have hinit : ring_buffer_init ⟨fun _ => (0 : Nat), 0, 0, 0⟩
        = ⟨fun _ => (0 : Nat), 0, 0, BUF_MAGIC⟩ := rfl
    rw [hinit, write_no_newline_full (fun _ => 0) BUF_MAGIC _ (by simp)
      (fun b hb => by have := List.eq_of_mem_replicate hb; omega)]
    have hw : window ⟨fill (fun _ => 0) (List.replicate BUF_SIZE 97), 0, 0,
        BUF_MAGIC⟩ = [] := by
      unfold window
      rw [ringLen_self]
      rfl
    rw [hw]
    intro hcontra
    have hlen := congrArg List.length hcontra
    rw [List.length_nil, List.length_replicate] at hlen
    exact absurd hlen (by simp [BUF_SIZE])

/-- C1 (amended): for every sequence of `ring_buffer_write` calls from a
freshly initialized ring buffer whose total length is strictly less than
`BUF_SIZE`, the retained window equals the concatenation of all written
bytes, byte for byte, in order. -/
theorem C1_amended_retained_window :
    ∀ (s0 : RingBuffer) (ls : List (List Nat)),
      ls.flatten.length < BUF_SIZE →
      window (ls.foldl ring_buffer_write (ring_buffer_init s0))
        = ls.flatten := by
  intro s0 ls h
  rw [foldl_write_flatten]
  have hinit : ring_buffer_init s0 = ⟨s0.data, 0, 0, BUF_MAGIC⟩ := rfl
  have h2 := write_fill s0.data BUF_MAGIC ls.flatten [] (by simpa using h)
  rw [fill_nil] at h2
  simp only [List.length_nil, List.nil_append] at h2
  rw [hinit, h2, window_fill s0.data BUF_MAGIC ls.flatten h]

/-- C1 witness: `C1_amended_retained_window` for the two writes
`[72, 105, 10]` then `[33]`. -/
theorem C1_witness :
    window (List.foldl ring_buffer_write
      (ring_buffer_init ⟨fun _ => 0, 5, 6, 7⟩) [[72, 105, 10], [33]])
      = [72, 105, 10, 33] :=
  C1_amended_retained_window ⟨fun _ => 0, 5, 6, 7⟩ [[72, 105, 10], [33]]
    (by decide)

/-- C2 counterexample: after the buffer has been filled by one line of
exactly `BUF_SIZE` newline-free bytes, the next byte written does NOT
cause a one-byte eviction: the tail does not move at all (it stays at the
start, where the degenerate full-buffer eviction left it), the head
advances to 1, and the window grows to hold just the new byte. -/
theorem C2_counterexample :
    (ring_buffer_write (ring_buffer_init ⟨fun _ => 0, 0, 0, 0⟩)
        (List.replicate BUF_SIZE 97)).tail = 0
    ∧ (ring_buffer_write (ring_buffer_write
        (ring_buffer_init ⟨fun _ => 0, 0, 0, 0⟩)
        (List.replicate BUF_SIZE 97)) [97]).tail = 0
    ∧ (ring_buffer_write (ring_buffer_write
        (ring_buffer_init ⟨fun _ => 0, 0, 0, 0⟩)
        (List.replicate BUF_SIZE 97)) [97]).head = 1
    ∧ window (ring_buffer_write (ring_buffer_write
        (ring_buffer_init ⟨fun _ => 0, 0, 0, 0⟩)
        (List.replicate BUF_SIZE 97)) [97]) = [97] := by
  have hinit : ring_buffer_init ⟨fun _ => (0 : Nat), 0, 0, 0⟩
      = ⟨fun _ => (0 : Nat), 0, 0, BUF_MAGIC⟩ := rfl
  have hfull := write_no_newline_full (fun _ => (0 : Nat)) BUF_MAGIC
    (List.replicate BUF_SIZE 97) (by simp)
    (fun b hb => by have := List.eq_of_mem_replicate hb; omega)
  have hnext := write_fill (fill (fun _ => (0 : Nat))
    (List.replicate BUF_SIZE 97)) BUF_MAGIC [97] [] (by simp [BUF_SIZE])
  rw [fill_nil] at hnext
  simp only [List.length_nil, List.nil_append] at hnext
  rw [hinit, hfull, hnext]
  refine ⟨rfl, rfl, by simp, ?_⟩
  rw [window_fill _ _ [97] (by simp [BUF_SIZE])]

/-- C2 (amended): when the buffer is filled by any single newline-free
line of exactly `BUF_SIZE` bytes, the eviction triggered by the final byte
of that line drops the whole buffer content at once — the tail travels the
full circle back to the head and the window becomes empty — and any
following write of fewer than `BUF_SIZE` bytes (arbitrary content) is then
stored with no eviction at all: the tail stays put while the head advances
by exactly the number of bytes written. -/
theorem C2_amended_full_drop :
    ∀ (d0 : Nat → Nat) (m : Int) (ws : List Nat),
      ws.length = BUF_SIZE → (∀ b ∈ ws, b ≠ 10) →
      ∀ (l : List Nat), l.length < BUF_SIZE →
      (ring_buffer_write ⟨d0, 0, 0, m⟩ ws).head = 0
      ∧ (ring_buffer_write ⟨d0, 0, 0, m⟩ ws).tail = 0
      ∧ window (ring_buffer_write ⟨d0, 0, 0, m⟩ ws) = []
      ∧ (ring_buffer_write (ring_buffer_write ⟨d0, 0, 0, m⟩ ws) l).head
          = l.length
      ∧ (ring_buffer_write (ring_buffer_write ⟨d0, 0, 0, m⟩ ws) l).tail
          = 0 := by
  intro d0 m ws hlen hnn l hl
  have hfull := write_no_newline_full d0 m ws hlen hnn
  have hnext := write_fill (fill d0 ws) m l [] (by simpa using hl)
  rw [fill_nil] at hnext
  simp only [List.length_nil, List.nil_append] at hnext
  rw [hfull, hnext]
  refine ⟨rfl, rfl, ?_, rfl, rfl⟩
  unfold window
  rw [ringLen_self]
  rfl

/-- C2 witness: `C2_amended_full_drop` for the all-`0x61` full line
followed by the three bytes `[65, 10, 66]` (which even contain a
newline): the head advances to 3 and the tail never moves. -/
theorem C2_witness :
    (ring_buffer_write (ring_buffer_write ⟨fun _ => 0, 0, 0, 0⟩
        (List.replicate BUF_SIZE 97)) [65, 10, 66]).head = 3
    ∧ (ring_buffer_write (ring_buffer_write ⟨fun _ => 0, 0, 0, 0⟩
        (List.replicate BUF_SIZE 97)) [65, 10, 66]).tail = 0 :=
  ⟨(C2_amended_full_drop (fun _ => 0) 0 (List.replicate BUF_SIZE 97)
      (by simp) (fun b hb => by have := List.eq_of_mem_replicate hb; omega)
      [65, 10, 66] (by decide)).2.2.2.1,
   (C2_amended_full_drop (fun _ => 0) 0 (List.replicate BUF_SIZE 97)
      (by simp) (fun b hb => by have := List.eq_of_mem_replicate hb; omega)
      [65, 10, 66] (by decide)).2.2.2.2⟩

/-- C8: the cursors always stay inside `[0, BUF_SIZE)` as offsets from
`storage_start`: initialization establishes the invariant, every write of
any content preserves it, and a cursor reaching offset `BUF_SIZE` wraps
back to 0. -/
theorem C8_cursor_invariant :
    (∀ s : RingBuffer, (ring_buffer_init s).head < BUF_SIZE
        ∧ (ring_buffer_init s).tail < BUF_SIZE)
    ∧ (∀ (s : RingBuffer) (msg : List Nat),
        s.head < BUF_SIZE → s.tail < BUF_SIZE →
          (ring_buffer_write s msg).head < BUF_SIZE
          ∧ (ring_buffer_write s msg).tail < BUF_SIZE)
    ∧ wrap BUF_SIZE = 0 := by
  refine ⟨?_, ?_, ?_⟩
  · intro s
    exact ⟨by simp [ring_buffer_init, BUF_SIZE], by simp [ring_buffer_init, BUF_SIZE]⟩
  · intro s msg hh ht
    exact write_bounds msg s hh ht
  · unfold wrap
    rw [if_pos rfl]

/-- C8 witness: `C8_cursor_invariant` after writing three bytes from
cursors 3 and 7. -/
theorem C8_witness :
    (ring_buffer_write ⟨fun _ => 0, 3, 7, 0⟩ [1, 2, 3]).head < BUF_SIZE
    ∧ (ring_buffer_write ⟨fun _ => 0, 3, 7, 0⟩ [1, 2, 3]).tail < BUF_SIZE :=
  C8_cursor_invariant.2.1 ⟨fun _ => 0, 3, 7, 0⟩ [1, 2, 3] (by decide) (by decide)

end KmsgLast
